/-
Verification of the perceptron program (src/perceptron.c).

The program consists of two functions plus a demonstration driver:

  int step_function(float x) { return (x >= 0) ? 1 : 0; }

  int perceptron(float inputs[], float weights[], float bias, int num_inputs) {
      float sum = bias;
      for (int i = 0; i < num_inputs; i++) { sum += inputs[i] * weights[i]; }
      return step_function(sum);
  }

  int main() { ... prints "Perceptron Output: %d\n" ... return 0; }

Embedding choices:
  * C `float` values are modelled as rationals (ℚ): every constant in the
    program (0, 1, 0.5, -0.5, 0.1, -1.0, 2) is exactly representable in
    binary floating point and all the claims are about the mathematical
    value of the computation, which the spec itself says is order
    independent.
  * Arrays are `List ℚ` and every array access uses Option-valued
    indexing (`l[i]?`); an out-of-bounds read makes the whole computation
    return `none`, so reachability of the error branch is provable.
  * The C loop `for (i = 0; i < num_inputs; i++)` is embedded as structural
    recursion on the number of remaining iterations while the index `i`
    advances in strict ascending order, exactly as in the source.  A
    negative `num_inputs` runs zero iterations (`Int.toNat` of a negative
    number is 0), matching the C loop guard `i < num_inputs`.
  * For the NaN claim a second embedding interprets `float` as
    `Option ℚ` with `none` playing the role of NaN: arithmetic propagates
    NaN and the comparison `x >= 0` is false on NaN, which is the IEEE-754
    comparison behaviour the spec appeals to.
-/

import Mathlib

namespace Perceptron

/-- C source: `int step_function(float x) { return (x >= 0) ? 1 : 0; }` -/
def step_function (x : ℚ) : ℤ :=
  if x ≥ 0 then 1 else 0

/-- The loop body of `perceptron`, recursing on the number of remaining
iterations `k`; the current index `i` advances in strict ascending order
and `acc` is the running value of the C variable `sum`.  Each iteration
performs the two array reads `inputs[i]` and `weights[i]`; an
out-of-bounds read aborts the whole computation with `none`. -/
def loopFrom (inputs weights : List ℚ) (i : ℕ) (acc : ℚ) : ℕ → Option ℚ
  | 0 => some acc
  | k + 1 =>
    match inputs[i]?, weights[i]? with
    | some a, some w => loopFrom inputs weights (i + 1) (acc + a * w) k
    | _, _ => none

/-- C source: `int perceptron(float inputs[], float weights[], float bias,
int num_inputs)`.  The accumulator starts at `bias`; the loop runs for
indices `0 ≤ i < num_inputs` (zero iterations when `num_inputs ≤ 0`);
the final sum is passed through `step_function`.  The result is `none`
exactly when the source would read out of bounds. -/
def perceptron (inputs weights : List ℚ) (bias : ℚ) (num_inputs : ℤ) :
    Option ℤ :=
  (loopFrom inputs weights 0 bias num_inputs.toNat).map step_function

/-- Modelled from the spec: the weighted sum
`bias + Σ input[i] × weight[i] for i in [0, N)` (§3 of the spec), written
with `Finset.range`; out-of-range reads default to 0 but the theorems
only use it under in-bounds hypotheses. -/
def weightedSum (inputs weights : List ℚ) (bias : ℚ) (n : ℕ) : ℚ :=
  bias + ∑ j ∈ Finset.range n, inputs.getD j 0 * weights.getD j 0

/-- Modelled from the spec: the accumulation written as a left fold over
the ascending index list `[0, 1, ..., N-1]`, the "strict ascending
(left-to-right) order" phrasing of §4.2. -/
def weightedSumFoldl (inputs weights : List ℚ) (bias : ℚ) (n : ℕ) : ℚ :=
  (List.range n).foldl (fun acc j => acc + inputs.getD j 0 * weights.getD j 0)
    bias

/- ### State-passing embedding (for the frame claim C9)

Each loop iteration explicitly threads the two arrays through, mirroring
that the C loop body only reads them (`sum += inputs[i] * weights[i];`
writes no array element). -/

/-- The loop of `perceptron` with the arrays threaded as explicit state;
the returned lists are the arrays as the loop leaves them. -/
def loopFromSt (i : ℕ) (acc : ℚ) :
    ℕ → List ℚ → List ℚ → Option ℚ × List ℚ × List ℚ
  | 0, inputs, weights => (some acc, inputs, weights)
  | k + 1, inputs, weights =>
    match inputs[i]?, weights[i]? with
    | some a, some w => loopFromSt (i + 1) (acc + a * w) k inputs weights
    | _, _ => (none, inputs, weights)

/-- `perceptron` with the arrays threaded as explicit state. -/
def perceptronSt (inputs weights : List ℚ) (bias : ℚ) (num_inputs : ℤ) :
    Option ℤ × List ℚ × List ℚ :=
  let r := loopFromSt 0 bias num_inputs.toNat inputs weights
  (r.1.map step_function, r.2)

/- ### NaN-aware embedding (for claim C7)

`float` is interpreted as `Option ℚ` where `none` plays the role of NaN:
IEEE-754 arithmetic propagates NaN through `+` and `*`, and any ordered
comparison involving NaN is false. -/

/-- NaN-propagating addition: `NaN + x = x + NaN = NaN`. -/
def fadd : Option ℚ → Option ℚ → Option ℚ
  | some a, some b => some (a + b)
  | _, _ => none

/-- NaN-propagating multiplication: `NaN * x = x * NaN = NaN`. -/
def fmul : Option ℚ → Option ℚ → Option ℚ
  | some a, some b => some (a * b)
  | _, _ => none

/-- `step_function` on NaN-aware floats: the C comparison `x >= 0` is
false when `x` is NaN, so NaN maps to 0. -/
def step_functionF (x : Option ℚ) : ℤ :=
  match x with
  | some q => if q ≥ 0 then 1 else 0
  | none => 0

/-- The loop of `perceptron` over NaN-aware floats; the outer `Option`
still records out-of-bounds aborts, the inner `Option ℚ` is the float
value (with `none` = NaN). -/
def loopFromF (inputs weights : List (Option ℚ)) (i : ℕ) (acc : Option ℚ) :
    ℕ → Option (Option ℚ)
  | 0 => some acc
  | k + 1 =>
    match inputs[i]?, weights[i]? with
    | some a, some w => loopFromF inputs weights (i + 1) (fadd acc (fmul a w)) k
    | _, _ => none

/-- `perceptron` over NaN-aware floats. -/
def perceptronF (inputs weights : List (Option ℚ)) (bias : Option ℚ)
    (num_inputs : ℤ) : Option ℤ :=
  (loopFromF inputs weights 0 bias num_inputs.toNat).map step_functionF

/-- The demonstration driver `main`: fixed inputs `{0, 1}`, weights
`{0.5, -0.5}`, bias `0.1`, count 2; prints one line
`Perceptron Output: <d>` and returns exit code 0.  The model produces the
printed line and the exit code (or `none` if the evaluation would read out
of bounds, which it does not). -/
def mainModel : Option (String × ℤ) :=
  (perceptron [0, 1] [1/2, -1/2] (1/10) 2).map
    (fun o => ("Perceptron Output: " ++ toString o ++ "\n", 0))

/- ### Correctness lemmas for the loop -/

/-- Under in-bounds hypotheses the loop computes the partial weighted sum
starting at index `i`, in closed form. -/
theorem loopFrom_eq_sum (inputs weights : List ℚ) :
    ∀ (k i : ℕ) (acc : ℚ), i + k ≤ inputs.length → i + k ≤ weights.length →
      loopFrom inputs weights i acc k =
        some (acc + ∑ j ∈ Finset.range k,
          inputs.getD (i + j) 0 * weights.getD (i + j) 0) := by
  intro k
  induction k with
  | zero => intro i acc _ _; simp [loopFrom]
  | succ k ih =>
    intro i acc hin hw
    have hi_in : i < inputs.length := by omega
    have hi_w : i < weights.length := by omega
    have h1 : inputs[i]? = some (inputs.getD i 0) := by
      rw [List.getElem?_eq_getElem hi_in, List.getD_eq_getElem _ _ hi_in]
    have h2 : weights[i]? = some (weights.getD i 0) := by
      rw [List.getElem?_eq_getElem hi_w, List.getD_eq_getElem _ _ hi_w]
    rw [loopFrom, h1, h2]
    dsimp only
    rw [ih (i + 1) (acc + inputs.getD i 0 * weights.getD i 0)
      (by omega) (by omega)]
    congr 1
    rw [Finset.sum_range_succ']
    have hsum : ∀ j ∈ Finset.range k,
        inputs.getD (i + 1 + j) 0 * weights.getD (i + 1 + j) 0 =
        inputs.getD (i + (j + 1)) 0 * weights.getD (i + (j + 1)) 0 := by
      intro j _
      have hj : i + 1 + j = i + (j + 1) := by omega
      rw [hj]
    rw [Finset.sum_congr rfl hsum]
    simp only [Nat.add_zero]
    ring

/-- In-bounds hypotheses make the loop succeed. -/
theorem loopFrom_isSome (inputs weights : List ℚ) (k i : ℕ) (acc : ℚ)
    (hin : i + k ≤ inputs.length) (hw : i + k ≤ weights.length) :
    (loopFrom inputs weights i acc k).isSome := by
  rw [loopFrom_eq_sum inputs weights k i acc hin hw]
  rfl

/-- The full loop from index 0 computes `weightedSum`. -/
theorem loopFrom_zero_eq (inputs weights : List ℚ) (bias : ℚ) (n : ℕ)
    (hin : n ≤ inputs.length) (hw : n ≤ weights.length) :
    loopFrom inputs weights 0 bias n =
      some (weightedSum inputs weights bias n) := by
  rw [loopFrom_eq_sum inputs weights n 0 bias (by omega) (by omega)]
  simp [weightedSum]

/-- The `Finset.range` sum agrees with the ascending left fold. -/
theorem weightedSumFoldl_eq (inputs weights : List ℚ) (bias : ℚ) (n : ℕ) :
    weightedSumFoldl inputs weights bias n = weightedSum inputs weights bias n := by
  induction n with
  | zero => simp [weightedSumFoldl, weightedSum]
  | succ n ih =>
    unfold weightedSumFoldl weightedSum at *
    rw [List.range_succ, List.foldl_append, ih, Finset.sum_range_succ]
    simp [add_assoc]

/- ### Shared helper lemmas -/

/-- `step_function` only ever produces 0 or 1. -/
theorem step_function_binary (x : ℚ) :
    step_function x = 0 ∨ step_function x = 1 := by
  unfold step_function
  split <;> simp

/-- `step_function` is monotone from 1: a larger argument keeps a 1. -/
theorem step_function_one_mono {x y : ℚ} (hxy : x ≤ y)
    (hx : step_function x = 1) : step_function y = 1 := by
  unfold step_function at *
  split at hx
  · have h0 : (0 : ℚ) ≤ y := le_trans (by assumption) hxy
    simp [h0]
  · exact absurd hx (by decide)

/-- The state-passing loop returns the arrays unchanged and computes the
same value as the pure loop. -/
theorem loopFromSt_frame :
    ∀ (k i : ℕ) (acc : ℚ) (inputs weights : List ℚ),
      loopFromSt i acc k inputs weights =
        (loopFrom inputs weights i acc k, inputs, weights) := by
  intro k
  induction k with
  | zero => intro i acc inputs weights; rfl
  | succ k ih =>
    intro i acc inputs weights
    rw [loopFromSt, loopFrom]
    cases h1 : inputs[i]? with
    | none => rfl
    | some a =>
      cases h2 : weights[i]? with
      | none => rfl
      | some w => exact ih (i + 1) (acc + a * w) inputs weights

/- ### Claim theorems -/

/-- C1: for every input vector, weight vector, bias and count `n` with
both vectors of length at least `n`, `perceptron` returns the step
function applied to the accumulator that starts at `bias` and adds
`input[i] * weight[i]` for `i` ascending from 0 to `n-1` (stated both as
the ascending left fold and as the closed-form sum
`bias + Σ input[i] × weight[i] for i in [0, n)`). -/
theorem perceptron_eq_step_weightedSum (inputs weights : List ℚ) (bias : ℚ)
    (n : ℤ) (hin : n.toNat ≤ inputs.length) (hw : n.toNat ≤ weights.length) :
    perceptron inputs weights bias n =
      some (step_function (weightedSumFoldl inputs weights bias n.toNat)) ∧
    perceptron inputs weights bias n =
      some (step_function (weightedSum inputs weights bias n.toNat)) := by
  have h : perceptron inputs weights bias n =
      some (step_function (weightedSum inputs weights bias n.toNat)) := by
    unfold perceptron
    rw [loopFrom_zero_eq inputs weights bias n.toNat hin hw]
    rfl
  exact ⟨by rw [weightedSumFoldl_eq]; exact h, h⟩

/-- C1 witness: the reference example `inputs = [0, 1]`,
`weights = [0.5, -0.5]`, `bias = 0.1`, count 2. -/
theorem perceptron_eq_step_weightedSum_witness :
    perceptron [0, 1] [1/2, -1/2] (1/10) 2 =
      some (step_function (weightedSumFoldl [0, 1] [1/2, -1/2] (1/10) 2)) ∧
    perceptron [0, 1] [1/2, -1/2] (1/10) 2 =
      some (step_function (weightedSum [0, 1] [1/2, -1/2] (1/10) 2)) :=
  perceptron_eq_step_weightedSum [0, 1] [1/2, -1/2] (1/10) 2
    (by decide) (by decide)

/-- C2: `step_function` is total and pure: it returns 1 when `x ≥ 0` and
0 when `x < 0`; in particular exactly 0 maps to 1 (inclusive threshold),
and on `inputs = [2, 0]`, `weights = [0.5, -0.5]`, `bias = -1.0`, count 2
the weighted sum is exactly 0 and the perceptron returns 1. -/
theorem step_function_contract (x : ℚ) :
    (0 ≤ x → step_function x = 1) ∧
    (x < 0 → step_function x = 0) ∧
    step_function 0 = 1 ∧
    loopFrom [2, 0] [1/2, -1/2] 0 (-1) 2 = some 0 ∧
    perceptron [2, 0] [1/2, -1/2] (-1) 2 = some 1 := by
  refine ⟨?_, ?_, by decide, by norm_num [loopFrom],
    by norm_num [perceptron, loopFrom, step_function]⟩
  · intro h
    simp [step_function, h]
  · intro h
    simp [step_function, not_le.mpr h]

/-- C2 witness: the conditional clauses evaluated at `x = 7` and
`x = -7`. -/
theorem step_function_contract_witness :
    step_function 7 = 1 ∧ step_function (-7) = 0 :=
  ⟨(step_function_contract 7).1 (by norm_num),
   (step_function_contract (-7)).2.1 (by norm_num)⟩

/-- C3: when the count is at most both true lengths, every array access
of `perceptron` is in bounds, so the out-of-bounds branch (`none`) is
unreachable; with count 3 on 2-element vectors the precondition fails and
the embedding reports the out-of-bounds read as `none`. -/
theorem perceptron_inbounds_safe (inputs weights : List ℚ) (bias : ℚ)
    (n : ℤ) (hin : n.toNat ≤ inputs.length) (hw : n.toNat ≤ weights.length) :
    (perceptron inputs weights bias n).isSome ∧
    perceptron [0, 1] [1/2, -1/2] (1/10) 3 = none := by
  constructor
  · unfold perceptron
    rw [loopFrom_zero_eq inputs weights bias n.toNat hin hw]
    rfl
  · decide

/-- C3 witness: the in-bounds clause at the reference example. -/
theorem perceptron_inbounds_safe_witness :
    (perceptron [0, 1] [1/2, -1/2] (1/10) 2).isSome ∧
    perceptron [0, 1] [1/2, -1/2] (1/10) 3 = none :=
  perceptron_inbounds_safe [0, 1] [1/2, -1/2] (1/10) 2 (by decide) (by decide)

/-- C4: with the vectors' lengths matching the count, `perceptron`
returns exactly 0 or exactly 1, never any other value. -/
theorem perceptron_binary (inputs weights : List ℚ) (bias : ℚ) (n : ℤ)
    (hin : inputs.length = n.toNat) (hw : weights.length = n.toNat) :
    perceptron inputs weights bias n = some 0 ∨
    perceptron inputs weights bias n = some 1 := by
  unfold perceptron
  rw [loopFrom_zero_eq inputs weights bias n.toNat (le_of_eq hin.symm)
    (le_of_eq hw.symm)]
  rcases step_function_binary (weightedSum inputs weights bias n.toNat) with
    h | h
  · left; simp [h]
  · right; simp [h]

/-- C4 witness: the reference example returns 0. -/
theorem perceptron_binary_witness :
    perceptron [0, 1] [1/2, -1/2] (1/10) 2 = some 0 ∨
    perceptron [0, 1] [1/2, -1/2] (1/10) 2 = some 1 :=
  perceptron_binary [0, 1] [1/2, -1/2] (1/10) 2 (by decide) (by decide)

/-- C5: with count 0, the sum equals the bias exactly and the result is
the activation function applied to the bias alone, for every input and
weight vector; bias 0.1 gives 1 and bias -0.1 gives 0. -/
theorem perceptron_zero_count (inputs weights : List ℚ) (bias : ℚ) :
    loopFrom inputs weights 0 bias (Int.toNat 0) = some bias ∧
    perceptron inputs weights bias 0 = some (step_function bias) ∧
    perceptron inputs weights (1/10) 0 = some 1 ∧
    perceptron inputs weights (-1/10) 0 = some 0 := by
  refine ⟨rfl, rfl, ?_, ?_⟩ <;> norm_num [perceptron, loopFrom, step_function]

/-- C6: increasing one input value whose corresponding weight is positive
(all other arguments equal) never decreases the weighted sum, and hence
never turns a result of 1 into 0. -/
theorem perceptron_monotone (inputs weights : List ℚ) (bias : ℚ) (n : ℤ)
    (i : ℕ) (v : ℚ) (hi : i < n.toNat)
    (hin : n.toNat ≤ inputs.length) (hw : n.toNat ≤ weights.length)
    (hv : inputs.getD i 0 ≤ v) (hpos : 0 < weights.getD i 0) :
    weightedSum inputs weights bias n.toNat ≤
      weightedSum (inputs.set i v) weights bias n.toNat ∧
    (perceptron inputs weights bias n = some 1 →
      perceptron (inputs.set i v) weights bias n = some 1) := by
  have hilen : i < inputs.length := lt_of_lt_of_le hi hin
  have heq : (inputs.set i v).getD i 0 = v := by
    simp only [List.getD_eq_getElem?_getD]
    rw [List.getElem?_set_eq_of_lt v hilen]
    rfl
  have hne : ∀ j : ℕ, j ≠ i → (inputs.set i v).getD j 0 = inputs.getD j 0 := by
    intro j hji
    simp only [List.getD_eq_getElem?_getD]
    rw [List.getElem?_set_ne (fun h => hji h.symm)]
  have hsum : weightedSum inputs weights bias n.toNat ≤
      weightedSum (inputs.set i v) weights bias n.toNat := by
    unfold weightedSum
    apply add_le_add_left
    apply Finset.sum_le_sum
    intro j hj
    by_cases hji : j = i
    · subst hji
      rw [heq]
      exact mul_le_mul_of_nonneg_right hv (le_of_lt hpos)
    · rw [hne j hji]
  refine ⟨hsum, ?_⟩
  intro h1
  unfold perceptron at h1 ⊢
  rw [loopFrom_zero_eq inputs weights bias n.toNat hin hw] at h1
  rw [loopFrom_zero_eq (inputs.set i v) weights bias n.toNat
    (by simpa using hin) hw]
  simp only [Option.map_some', Option.some_inj] at h1 ⊢
  exact step_function_one_mono hsum h1

/-- C6 witness: raise the first input of the reference example from 0 to
1 (its weight 0.5 is positive). -/
theorem perceptron_monotone_witness :
    weightedSum [0, 1] [1/2, -1/2] (1/10) (Int.toNat 2) ≤
      weightedSum (List.set [0, 1] 0 1) [1/2, -1/2] (1/10) (Int.toNat 2) ∧
    (perceptron [0, 1] [1/2, -1/2] (1/10) 2 = some 1 →
      perceptron (List.set [0, 1] 0 1) [1/2, -1/2] (1/10) 2 = some 1) :=
  perceptron_monotone [0, 1] [1/2, -1/2] (1/10) 2 0 1 (by decide) (by decide)
    (by decide) (by norm_num [List.getD]) (by norm_num [List.getD])

/-- C7: NaN is not rejected: when the accumulated sum is NaN, the
activation function's `>= 0` comparison is false, so the perceptron
classifies the call as 0. -/
theorem perceptronF_nan_is_zero (inputs weights : List (Option ℚ))
    (bias : Option ℚ) (n : ℤ)
    (h : loopFromF inputs weights 0 bias n.toNat = some none) :
    perceptronF inputs weights bias n = some 0 ∧ step_functionF none = 0 := by
  refine ⟨?_, rfl⟩
  unfold perceptronF
  rw [h]
  rfl

/-- C7 witness: a NaN weight makes the sum NaN and the result 0. -/
theorem perceptronF_nan_is_zero_witness :
    perceptronF [some 1] [none] (some 0) 1 = some 0 ∧
    step_functionF none = 0 :=
  perceptronF_nan_is_zero [some 1] [none] (some 0) 1 (by decide)

/-- C8: the demonstration driver evaluates the perceptron on
`inputs = [0, 1]`, `weights = [0.5, -0.5]`, `bias = 0.1`, count 2; the
weighted sum is -0.4, the result 0, and the driver emits exactly the line
`Perceptron Output: 0` (with trailing newline) and exit code 0. -/
theorem mainModel_spec :
    loopFrom [0, 1] [1/2, -1/2] 0 (1/10) 2 = some (-2/5) ∧
    perceptron [0, 1] [1/2, -1/2] (1/10) 2 = some 0 ∧
    mainModel = some ("Perceptron Output: 0\n", 0) := by
  have h : perceptron [0, 1] [1/2, -1/2] (1/10) 2 = some 0 := by
    norm_num [perceptron, loopFrom, step_function]
  refine ⟨by norm_num [loopFrom], h, ?_⟩
  rw [mainModel, h]
  rfl

/-- C9: `perceptron` is pure: run with the arrays threaded as explicit
state, it returns the input vector and the weight vector unchanged, and
its value is that of the pure function (so equal arguments give equal
results). -/
theorem perceptronSt_pure (inputs weights : List ℚ) (bias : ℚ) (n : ℤ) :
    perceptronSt inputs weights bias n =
      (perceptron inputs weights bias n, inputs, weights) := by
  unfold perceptronSt perceptron
  rw [loopFromSt_frame]

/-- C10: a negative count runs zero loop iterations, so the result is
`step_function bias`, the same as count 0, for every input and weight
vector. -/
theorem perceptron_neg_count (inputs weights : List ℚ) (bias : ℚ) (n : ℤ)
    (hn : n < 0) :
    perceptron inputs weights bias n = some (step_function bias) := by
  unfold perceptron
  rw [Int.toNat_of_nonpos (le_of_lt hn)]
  rfl

/-- C10 witness: count -1 on the reference vectors. -/
theorem perceptron_neg_count_witness :
    perceptron [0, 1] [1/2, -1/2] (1/10) (-1) =
      some (step_function (1/10)) :=
  perceptron_neg_count [0, 1] [1/2, -1/2] (1/10) (-1) (by decide)

end Perceptron
